import Mathlib

/-!
Shallow embedding of the `trading_backtest` package (portfolio ledger and
performance metrics), together with theorems checking the natural-language
specification against it.

Monetary amounts, share counts, prices and commission rates are modelled as
exact rationals (`ℚ`); Python `dict`s are modelled as association lists whose
key lists are duplicate-free in every state the program constructs; Python
exceptions are modelled by `Except Err`.
-/

set_option autoImplicit false

instance {ε α : Type _} [DecidableEq ε] [DecidableEq α] : DecidableEq (Except ε α) := fun x y =>
  match x, y with
  | .ok a, .ok b => if h : a = b then .isTrue (by rw [h]) else .isFalse (by simp [h])
  | .error e, .error f => if h : e = f then .isTrue (by rw [h]) else .isFalse (by simp [h])
  | .ok _, .error _ => .isFalse (by simp)
  | .error _, .ok _ => .isFalse (by simp)

namespace Inv

abbrev Ticker := String

/-- Python exceptions raised by the package, by site:
`invalidOrder` = `ValueError("Cannot buy/sell non-positive shares")`,
`positionNotFound` = `ValueError("Cannot sell …: not in holdings")`,
`insufficientPosition` = `ValueError("Cannot sell …: only … available")`,
`invalidConfig` = `ValueError("Unknown allocation method")`,
`keyError` = Python `KeyError` on a missing dict key,
`emptyHistory` = `ValueError("Cannot calculate metrics from empty history")`. -/
inductive Err where
  | invalidOrder
  | positionNotFound
  | insufficientPosition
  | invalidConfig
  | keyError
  | emptyHistory
deriving DecidableEq

/-- One record of `Portfolio.trades` (the `_record_trade` dict). -/
structure Trade where
  date : Option Int
  ticker : Ticker
  action : String
  shares : ℚ
  price : ℚ
  commission : ℚ
  value : ℚ
deriving DecidableEq

/-- Association-list model of Python `dict[str, float]`. -/
abbrev Dict := List (Ticker × ℚ)

/-- First-occurrence lookup in an association list (Python `d[k]` / `k in d`). -/
def lookup? (k : Ticker) : Dict → Option ℚ
  | [] => none
  | (k', v) :: t => if k' = k then some v else lookup? k t

/-- Python `d.get(k, 0)`. -/
def getD (d : Dict) (k : Ticker) : ℚ :=
  (lookup? k d).getD 0

/-- Python `d[k] = v`: replace the value at the first occurrence of `k`,
or append the new pair at the end (dict insertion order). -/
def setKey (k : Ticker) (v : ℚ) : Dict → Dict
  | [] => [(k, v)]
  | (k', v') :: t => if k' = k then (k, v) :: t else (k', v') :: setKey k v t

/-- Python `del d[k]`: remove the first occurrence of `k`. -/
def delKey (k : Ticker) : Dict → Dict
  | [] => []
  | (k', v') :: t => if k' = k then t else (k', v') :: delKey k t

/-- Keys of a dict, in order. -/
def keys (d : Dict) : List Ticker := d.map Prod.fst

/-- The pruning threshold `1e-10` of `sell_partial`. -/
def pruneEps : ℚ := 1 / 10 ^ 10

/-- State of `trading_backtest.portfolio.Portfolio`. -/
structure Portfolio where
  initial_capital : ℚ
  cash : ℚ
  holdings : Dict
  commission_buy : ℚ
  commission_sell : ℚ
  trades : List Trade
  total_value : ℚ
deriving DecidableEq

namespace Portfolio

/-- `Portfolio.__init__`. -/
def init (initial_capital commission_buy commission_sell : ℚ) : Portfolio where
  initial_capital := initial_capital
  cash := initial_capital
  holdings := []
  commission_buy := commission_buy
  commission_sell := commission_sell
  trades := []
  total_value := initial_capital

/-- `Portfolio._record_trade`. -/
def record_trade (p : Portfolio) (date : Option Int) (ticker : Ticker)
    (action : String) (shares price commission value : ℚ) : Portfolio :=
  { p with trades := p.trades ++
      [{ date := date, ticker := ticker, action := action, shares := shares,
         price := price, commission := commission, value := value }] }

/-- `Portfolio.buy`. Insufficient cash is not an error: the order is clamped
to `cash / (1 + commission_buy) / price` shares. -/
def buy (p : Portfolio) (ticker : Ticker) (shares price : ℚ)
    (date : Option Int) : Except Err Portfolio :=
  if shares ≤ 0 then .error .invalidOrder
  else
    let cost := shares * price
    let commission := cost * p.commission_buy
    let total_cost := cost + commission
    if p.cash < total_cost then
      let max_cost := p.cash / (1 + p.commission_buy)
      let shares' := max_cost / price
      let cost' := shares' * price
      let commission' := cost' * p.commission_buy
      let total_cost' := cost' + commission'
      .ok (record_trade
        { p with cash := p.cash - total_cost',
                 holdings := setKey ticker (getD p.holdings ticker + shares') p.holdings }
        date ticker ("buy") shares' price commission' cost')
    else
      .ok (record_trade
        { p with cash := p.cash - total_cost,
                 holdings := setKey ticker (getD p.holdings ticker + shares) p.holdings }
        date ticker ("buy") shares price commission cost)

/-- `Portfolio.sell_partial`. Checks, in source order: ticker held,
`shares > 0`, `shares ≤ holdings[ticker]`; then credits the net proceeds and
prunes the position if the remainder's magnitude is below `1e-10`. -/
def sellPartial (p : Portfolio) (ticker : Ticker) (shares price : ℚ)
    (date : Option Int) : Except Err Portfolio :=
  match lookup? ticker p.holdings with
  | none => .error .positionNotFound
  | some held =>
    if shares ≤ 0 then .error .invalidOrder
    else if held < shares then .error .insufficientPosition
    else
      let proceeds := shares * price
      let commission := proceeds * p.commission_sell
      let net_proceeds := proceeds - commission
      let remaining := held - shares
      let holdings' :=
        if |remaining| < pruneEps then delKey ticker p.holdings
        else setKey ticker remaining p.holdings
      .ok (record_trade
        { p with cash := p.cash + net_proceeds, holdings := holdings' }
        date ticker ("sell") shares price commission proceeds)

/-- `Portfolio.sell`: sell the entire position via `sell_partial`. -/
def sell (p : Portfolio) (ticker : Ticker) (price : ℚ)
    (date : Option Int) : Except Err Portfolio :=
  match lookup? ticker p.holdings with
  | none => .error .positionNotFound
  | some held => p.sellPartial ticker held price date

end Portfolio

/-- Mark-to-market value of a holdings dict: tickers lacking a price
contribute 0 (with a diagnostic in the source). -/
def holdingsValue (h prices : Dict) : ℚ :=
  (h.map (fun ts =>
    match lookup? ts.1 prices with
    | some pr => ts.2 * pr
    | none => 0)).sum

namespace Portfolio

/-- `Portfolio.get_holdings_value`: tickers lacking a price contribute 0. -/
def get_holdings_value (p : Portfolio) (prices : Dict) : ℚ :=
  holdingsValue p.holdings prices

/-- `Portfolio.update_value`: cache `cash + holdings value` in `total_value`. -/
def update_value (p : Portfolio) (prices : Dict) : Portfolio :=
  { p with total_value := p.cash + p.get_holdings_value prices }

/-- `Portfolio.get_position`: shares held, 0 when absent. -/
def get_position (p : Portfolio) (ticker : Ticker) : ℚ :=
  getD p.holdings ticker

/-- `Portfolio.convert_values_to_shares`:
`shares = target_value / (1 + commission_buy) / price`, skipping tickers
without a price. -/
def convert_values_to_shares (p : Portfolio) (target_values prices : Dict) : Dict :=
  target_values.filterMap (fun tv =>
    match lookup? tv.1 prices with
    | none => none
    | some pr => some (tv.1, tv.2 / (1 + p.commission_buy) / pr))

end Portfolio

/-- `Portfolio._equal_weight` (`self` is unused by the source method). -/
def equal_weight (selected_assets : List (Ticker × ℚ)) (total_value : ℚ) : Dict :=
  if selected_assets.length = 0 then []
  else selected_assets.map (fun ts => (ts.1, total_value / selected_assets.length))

/-- `Portfolio._score_proportional` (`self` is unused by the source method):
weight by `score / total_score`, falling back to equal weight when the total
score is zero. -/
def score_proportional (selected_assets : List (Ticker × ℚ)) (total_value : ℚ) : Dict :=
  if selected_assets.isEmpty then []
  else
    let total_score := (selected_assets.map Prod.snd).sum
    if total_score = 0 then equal_weight selected_assets total_value
    else selected_assets.map (fun ts => (ts.1, ts.2 / total_score * total_value))

/-- `Portfolio.calculate_target_holdings` (`self` is unused by the source
method beyond dispatch). -/
def calculate_target_holdings (selected_assets : List (Ticker × ℚ)) (total_value : ℚ)
    (allocation_method : String) : Except Err Dict :=
  if allocation_method = "equal" then .ok (equal_weight selected_assets total_value)
  else if allocation_method = "score_proportional" then
    .ok (score_proportional selected_assets total_value)
  else .error .invalidConfig

namespace Portfolio

/-- One iteration of the SELL loop of `Portfolio.rebalance` for one ticker of
the pre-phase holdings key list: full sell when the target is zero, partial
sell down to the target when the target is below the current holding. -/
def sellPhaseStep (targets prices : Dict) (date : Option Int)
    (p : Portfolio) (ticker : Ticker) : Except Err Portfolio :=
  match lookup? ticker p.holdings with
  | none => .error .keyError
  | some current_shares =>
    let target_shares := getD targets ticker
    if target_shares = 0 then
      match lookup? ticker prices with
      | none => .error .keyError
      | some pr => p.sell ticker pr date
    else if target_shares < current_shares then
      match lookup? ticker prices with
      | none => .error .keyError
      | some pr => p.sellPartial ticker (current_shares - target_shares) pr date
    else .ok p

/-- The SELL phase of `Portfolio.rebalance`: iterate `sellPhaseStep` over a
snapshot of the holdings keys (`list(self.holdings.keys())`). -/
def sellPhase (p : Portfolio) (targets prices : Dict) (date : Option Int) :
    Except Err Portfolio :=
  (keys p.holdings).foldlM (sellPhaseStep targets prices date) p

/-- The buy-scaling fraction of `Portfolio.rebalance`: 1 unless the measured
value lost exceeds one cent. -/
def fraction_to_buy (value_lost cash_after_sell cash_initial : ℚ) : ℚ :=
  if 1 / 100 < value_lost then
    let cash_intended_to_buy := cash_after_sell - cash_initial + value_lost
    (cash_intended_to_buy - value_lost) / cash_intended_to_buy
  else 1

/-- One iteration of the BUY loop of `Portfolio.rebalance` for one
`(ticker, target_shares)` item: buy the scaled shortfall if affordable, else
buy the maximum affordable amount when cash remains. -/
def buyPhaseStep (prices : Dict) (date : Option Int) (fraction : ℚ)
    (p : Portfolio) (tt : Ticker × ℚ) : Except Err Portfolio :=
  let current_shares := getD p.holdings tt.1
  if current_shares < tt.2 then
    match lookup? tt.1 prices with
    | none => .error .keyError
    | some pr =>
      let shares_to_buy := (tt.2 - current_shares) * fraction
      let cost := shares_to_buy * pr
      let total_cost := cost * (1 + p.commission_buy)
      if total_cost ≤ p.cash then p.buy tt.1 shares_to_buy pr date
      else if 0 < p.cash then
        let max_shares := p.cash / (pr * (1 + p.commission_buy))
        if 0 < max_shares then p.buy tt.1 max_shares pr date
        else .ok p
      else .ok p
  else .ok p

/-- `Portfolio.rebalance`: mark to market, SELL phase, measure the value lost,
derive the buy-scaling fraction, BUY phase. -/
def rebalance (p : Portfolio) (target_holdings prices : Dict) (date : Option Int) :
    Except Err Portfolio :=
  let p0 := p.update_value prices
  let portfolio_value_initial := p0.total_value
  let cash_initial := p0.cash
  match p0.sellPhase target_holdings prices date with
  | .error e => .error e
  | .ok p1 =>
    let p2 := p1.update_value prices
    let value_lost := portfolio_value_initial - p2.total_value
    let fraction := fraction_to_buy value_lost p2.cash cash_initial
    target_holdings.foldlM (buyPhaseStep prices date fraction) p2

end Portfolio

/-- Ledger states reachable from `Portfolio.__init__` with a positive initial
capital by successful `buy`, `sell`, `sell_partial` and `rebalance` calls at
positive prices. -/
inductive Reachable (commission_buy commission_sell : ℚ) : Portfolio → Prop where
  | init (initial_capital : ℚ) (hcap : 0 < initial_capital) :
      Reachable commission_buy commission_sell
        (Portfolio.init initial_capital commission_buy commission_sell)
  | buy {p q : Portfolio} {t : Ticker} {s pr : ℚ} {d : Option Int} :
      Reachable commission_buy commission_sell p → 0 < pr →
      p.buy t s pr d = .ok q → Reachable commission_buy commission_sell q
  | sell {p q : Portfolio} {t : Ticker} {pr : ℚ} {d : Option Int} :
      Reachable commission_buy commission_sell p → 0 < pr →
      p.sell t pr d = .ok q → Reachable commission_buy commission_sell q
  | sellPartial {p q : Portfolio} {t : Ticker} {s pr : ℚ} {d : Option Int} :
      Reachable commission_buy commission_sell p → 0 < pr →
      p.sellPartial t s pr d = .ok q → Reachable commission_buy commission_sell q
  | rebalance {p q : Portfolio} {targets prices : Dict} {d : Option Int} :
      Reachable commission_buy commission_sell p →
      (∀ t pr, (t, pr) ∈ prices → 0 < pr) →
      p.rebalance targets prices d = .ok q → Reachable commission_buy commission_sell q

/-! ## Metrics (`trading_backtest.metrics`) -/

/-- One row of the backtest history handed to `calculate_metrics` (the fields
it reads). Dates are day numbers, so that subtraction is `timedelta.days`. -/
structure Snapshot where
  date : Int
  portfolio_value : ℝ

/-- The dict returned by `calculate_metrics`. -/
structure Metrics where
  final_value : ℝ
  total_return : ℝ
  tir : ℝ
  sharpe : ℝ
  max_drawdown : ℝ
  volatility : ℝ
  num_rebalances : ℕ
  days : ℤ
  years : ℝ

/-- Pandas `Series.pct_change().dropna()`: consecutive percent changes. -/
noncomputable def pct_change : List ℝ → List ℝ
  | v0 :: v1 :: rest => (v1 / v0 - 1) :: pct_change (v1 :: rest)
  | _ => []

/-- Arithmetic mean of a list. -/
noncomputable def mean (l : List ℝ) : ℝ := l.sum / l.length

/-- Sample variance with `ddof = 1`, as pandas `Series.std()` squares it. -/
noncomputable def sampleVariance (l : List ℝ) : ℝ :=
  (l.map (fun x => (x - mean l) ^ 2)).sum / ((l.length : ℝ) - 1)

/-- Sample standard deviation (pandas `Series.std()`, `ddof = 1`). -/
noncomputable def sampleStd (l : List ℝ) : ℝ := Real.sqrt (sampleVariance l)

/-- Pandas `Series.std()` including its `NaN` behaviour: `none` (= `NaN`)
when fewer than two observations are available. -/
noncomputable def sampleStdNaN (l : List ℝ) : Option ℝ :=
  if 2 ≤ l.length then some (sampleStd l) else none

/-- Running maxima continuing from `m` (helper for `cummax`). -/
noncomputable def cummaxFrom (m : ℝ) : List ℝ → List ℝ
  | [] => []
  | x :: xs => max m x :: cummaxFrom (max m x) xs

/-- Pandas `Series.cummax()`. -/
noncomputable def cummax : List ℝ → List ℝ
  | [] => []
  | x :: xs => x :: cummaxFrom x xs

/-- Pandas `Series.min()` of a non-empty series. -/
noncomputable def listMin (l : List ℝ) : ℝ := l.foldl min (l.headD 0)

open Classical in
/-- Body of `calculate_metrics` on a non-empty history. -/
noncomputable def metricsOf (history : List Snapshot) (initial_capital : ℝ) : Metrics :=
  let final_value := (history.getLastD ⟨0, 0⟩).portfolio_value
  let total_return := (final_value - initial_capital) / initial_capital
  let days : ℤ := (history.getLastD ⟨0, 0⟩).date - (history.headD ⟨0, 0⟩).date
  let years : ℝ := (days : ℝ) / 365.25
  let tir := if 0 < years then (final_value / initial_capital) ^ ((1 : ℝ) / years) - 1 else 0
  let daily_returns := pct_change (history.map Snapshot.portfolio_value)
  let volatility :=
    if 1 < daily_returns.length then sampleStd daily_returns * Real.sqrt 252 else 0
  let sharpe :=
    if 1 < daily_returns.length then (if 0 < volatility then tir / volatility else 0) else 0
  let values := history.map Snapshot.portfolio_value
  let drawdown := List.zipWith (fun v m => (v - m) / m) values (cummax values)
  { final_value := final_value
    total_return := total_return
    tir := tir
    sharpe := sharpe
    max_drawdown := listMin drawdown
    volatility := volatility
    num_rebalances := history.length
    days := days
    years := years }

/-- `calculate_metrics`: raises on an empty history, else computes the body. -/
noncomputable def calculate_metrics (history : List Snapshot) (initial_capital : ℝ) :
    Except Err Metrics :=
  if history.isEmpty then .error .emptyHistory
  else .ok (metricsOf history initial_capital)

/-! ## Invariant predicates and concrete instances used by the theorems -/

/-- The spec's holdings invariant: every entry present is at least the
pruning threshold `1e-10` (in particular nonzero and positive). -/
def holdingsOk (h : Dict) : Prop := ∀ tv ∈ h, pruneEps ≤ tv.2

/-- Every held ticker has a nonnegative price in `prices`. -/
def PricedNonneg (prices h : Dict) : Prop :=
  ∀ t ∈ keys h, ∃ pr, lookup? t prices = some pr ∧ 0 ≤ pr

/-- Every held ticker's target share count is zero or at least the pruning
threshold, so a partial sell never leaves a sub-threshold positive residue. -/
def TargetsOk (targets h : Dict) : Prop :=
  ∀ t ∈ keys h, getD targets t = 0 ∨ pruneEps ≤ getD targets t

/-- The share amount `Portfolio.buy` actually executes: the requested amount,
or the cash-clamped maximum `cash / (1 + commission_buy) / price`. -/
def Portfolio.buyExecuted (p : Portfolio) (shares price : ℚ) : ℚ :=
  if p.cash < shares * price + shares * price * p.commission_buy
  then p.cash / (1 + p.commission_buy) / price
  else shares

/-- A positive share count strictly below the pruning threshold `1e-10`. -/
def tinyPos : ℚ := 1 / 2 ^ 40

/-- Ledger holding one share of `"T"`, no cash, no commissions. -/
def cexResidue : Portfolio := { Portfolio.init 0 0 0 with holdings := [("T", 1)] }

/-- Ledger with cash 10, commission-free, holding a sub-threshold residue. -/
def cexRoundTrip : Portfolio := { Portfolio.init 10 0 0 with holdings := [("T", tinyPos)] }

/-- Ledger with cash 10, commission-free, holding one share of `"A"`. -/
def witLedger : Portfolio := { Portfolio.init 10 0 0 with holdings := [("A", 1)] }

/-- A two-snapshot history (a single per-step return). -/
def cexHist2 : List Snapshot := [⟨0, 100⟩, ⟨7, 110⟩]

/-- A three-snapshot history (two per-step returns). -/
def witHist3 : List Snapshot := [⟨0, 100⟩, ⟨7, 110⟩, ⟨14, 121⟩]

/-! ## Association-list lemmas -/

theorem lookup?_mem {k : Ticker} {v : ℚ} {d : Dict} (h : lookup? k d = some v) :
    (k, v) ∈ d := by
  induction d with
  | nil => simp [lookup?] at h
  | cons hd t ih =>
    obtain ⟨k', v'⟩ := hd
    by_cases hk : k' = k
    · subst hk
      simp [lookup?] at h
      simp [h]
    · simp [lookup?, hk] at h
      exact List.mem_cons_of_mem _ (ih h)

theorem mem_keys_of_lookup? {k : Ticker} {v : ℚ} {d : Dict} (h : lookup? k d = some v) :
    k ∈ keys d := by
  have := lookup?_mem h
  exact List.mem_map_of_mem Prod.fst this

theorem lookup?_eq_some_of_mem_keys {k : Ticker} {d : Dict} (h : k ∈ keys d) :
    ∃ v, lookup? k d = some v := by
  induction d with
  | nil => simp [keys] at h
  | cons hd t ih =>
    obtain ⟨k', v'⟩ := hd
    by_cases hk : k' = k
    · subst hk; exact ⟨v', by simp [lookup?]⟩
    · have h2 : k ∈ keys t := by
        have hmem : k = k' ∨ k ∈ keys t := by simpa [keys] using h
        rcases hmem with h1 | h1
        · exact absurd h1.symm hk
        · exact h1
      obtain ⟨v, hv⟩ := ih h2
      exact ⟨v, by simp [lookup?, hk, hv]⟩

theorem lookup?_setKey_self (k : Ticker) (v : ℚ) (d : Dict) :
    lookup? k (setKey k v d) = some v := by
  induction d with
  | nil => simp [setKey, lookup?]
  | cons hd t ih =>
    obtain ⟨k', v'⟩ := hd
    by_cases hk : k' = k
    · simp [setKey, hk, lookup?]
    · simp [setKey, hk, lookup?, ih]

theorem lookup?_setKey_ne {k' k : Ticker} (v : ℚ) (d : Dict) (hne : k' ≠ k) :
    lookup? k' (setKey k v d) = lookup? k' d := by
  have hkk : k ≠ k' := Ne.symm hne
  induction d with
  | nil => simp [setKey, lookup?, hkk]
  | cons hd t ih =>
    obtain ⟨k₀, v₀⟩ := hd
    by_cases hk : k₀ = k
    · subst hk
      simp [setKey, lookup?, hkk]
    · simp only [setKey, if_neg hk, lookup?, ih]

theorem lookup?_delKey_ne {k' k : Ticker} (d : Dict) (hne : k' ≠ k) :
    lookup? k' (delKey k d) = lookup? k' d := by
  have hkk : k ≠ k' := Ne.symm hne
  induction d with
  | nil => simp [delKey]
  | cons hd t ih =>
    obtain ⟨k₀, v₀⟩ := hd
    by_cases hk : k₀ = k
    · subst hk
      simp [delKey, lookup?, hkk]
    · simp only [delKey, if_neg hk, lookup?, ih]

theorem setKey_eq_self {k : Ticker} {v : ℚ} {d : Dict} (h : lookup? k d = some v) :
    setKey k v d = d := by
  induction d with
  | nil => simp [lookup?] at h
  | cons hd t ih =>
    obtain ⟨k', v'⟩ := hd
    by_cases hk : k' = k
    · subst hk
      simp [lookup?] at h
      simp [setKey, h]
    · simp [lookup?, hk] at h
      simp [setKey, hk, ih h]

theorem setKey_setKey (k : Ticker) (v w : ℚ) (d : Dict) :
    setKey k v (setKey k w d) = setKey k v d := by
  induction d with
  | nil => simp [setKey]
  | cons hd t ih =>
    obtain ⟨k', v'⟩ := hd
    by_cases hk : k' = k
    · simp [setKey, hk]
    · simp [setKey, hk, ih]

theorem delKey_setKey_of_none {k : Ticker} (v : ℚ) {d : Dict}
    (h : lookup? k d = none) : delKey k (setKey k v d) = d := by
  induction d with
  | nil => simp [setKey, delKey]
  | cons hd t ih =>
    obtain ⟨k', v'⟩ := hd
    by_cases hk : k' = k
    · subst hk; simp [lookup?] at h
    · simp [lookup?, hk] at h
      simp [setKey, delKey, hk, ih h]

theorem mem_setKey {tv : Ticker × ℚ} {k : Ticker} {v : ℚ} {d : Dict}
    (h : tv ∈ setKey k v d) : tv = (k, v) ∨ tv ∈ d := by
  induction d with
  | nil =>
    simp [setKey] at h
    exact Or.inl (by simp [h])
  | cons hd t ih =>
    obtain ⟨k', v'⟩ := hd
    by_cases hk : k' = k
    · simp [setKey, hk] at h
      rcases h with h | h
      · exact Or.inl h
      · exact Or.inr (List.mem_cons_of_mem _ h)
    · simp only [setKey, if_neg hk, List.mem_cons] at h
      rcases h with h | h
      · exact Or.inr (by simp [h])
      · rcases ih h with h' | h'
        · exact Or.inl h'
        · exact Or.inr (List.mem_cons_of_mem _ h')

theorem mem_delKey {tv : Ticker × ℚ} {k : Ticker} {d : Dict}
    (h : tv ∈ delKey k d) : tv ∈ d := by
  induction d with
  | nil => simp [delKey] at h
  | cons hd t ih =>
    obtain ⟨k', v'⟩ := hd
    by_cases hk : k' = k
    · simp only [delKey, if_pos hk] at h
      exact List.mem_cons_of_mem _ h
    · simp only [delKey, if_neg hk, List.mem_cons] at h
      rcases h with h | h
      · simp [h]
      · exact List.mem_cons_of_mem _ (ih h)

theorem keys_setKey_of_some {k : Ticker} {v w : ℚ} {d : Dict}
    (h : lookup? k d = some w) : keys (setKey k v d) = keys d := by
  induction d with
  | nil => simp [lookup?] at h
  | cons hd t ih =>
    obtain ⟨k', v'⟩ := hd
    by_cases hk : k' = k
    · subst hk; simp [setKey, keys]
    · simp [lookup?, hk] at h
      simp [setKey, hk, keys] at ih ⊢
      exact ih h

theorem keys_delKey_sublist (k : Ticker) (d : Dict) :
    (keys (delKey k d)).Sublist (keys d) := by
  induction d with
  | nil => exact List.Sublist.slnil
  | cons hd t ih =>
    obtain ⟨k', v'⟩ := hd
    by_cases hk : k' = k
    · simp only [delKey, if_pos hk, keys, List.map_cons]
      exact List.Sublist.cons _ (List.Sublist.refl _)
    · simpa [delKey, hk, keys] using ih.cons₂ k'


/-! ## Mark-to-market value lemmas -/

theorem holdingsValue_nil (prices : Dict) : holdingsValue [] prices = 0 := rfl

theorem holdingsValue_cons (k : Ticker) (v : ℚ) (t : List (Ticker × ℚ)) (prices : Dict) :
    holdingsValue ((k, v) :: t) prices
      = (match lookup? k prices with
         | some pr => v * pr
         | none => 0) + holdingsValue t prices := by
  simp [holdingsValue]

theorem holdingsValue_setKey {d prices : Dict} {k : Ticker} {c pr : ℚ} (v : ℚ)
    (hk : lookup? k d = some c) (hpr : lookup? k prices = some pr) :
    holdingsValue (setKey k v d) prices = holdingsValue d prices + (v - c) * pr := by
  induction d with
  | nil => simp [lookup?] at hk
  | cons hd t ih =>
    obtain ⟨k₀, v₀⟩ := hd
    by_cases hk0 : k₀ = k
    · subst hk0
      simp [lookup?] at hk
      subst hk
      have hset : setKey k₀ v ((k₀, v₀) :: t) = (k₀, v) :: t := by simp [setKey]
      rw [hset, holdingsValue_cons, holdingsValue_cons, hpr]
      ring
    · simp only [lookup?, if_neg hk0] at hk
      simp only [setKey, if_neg hk0, holdingsValue_cons, ih hk]
      ring

theorem holdingsValue_delKey {d prices : Dict} {k : Ticker} {c pr : ℚ}
    (hk : lookup? k d = some c) (hpr : lookup? k prices = some pr) :
    holdingsValue (delKey k d) prices = holdingsValue d prices - c * pr := by
  induction d with
  | nil => simp [lookup?] at hk
  | cons hd t ih =>
    obtain ⟨k₀, v₀⟩ := hd
    by_cases hk0 : k₀ = k
    · subst hk0
      simp [lookup?] at hk
      subst hk
      have hdel : delKey k₀ ((k₀, v₀) :: t) = t := by simp [delKey]
      rw [hdel, holdingsValue_cons, hpr]
      ring
    · simp only [lookup?, if_neg hk0] at hk
      simp only [delKey, if_neg hk0, holdingsValue_cons, ih hk]
      ring

/-! ## Characterizations of the order primitives -/

theorem buy_nonpos (p : Portfolio) (t : Ticker) {s : ℚ} (pr : ℚ) (d : Option Int)
    (hs : s ≤ 0) : p.buy t s pr d = .error .invalidOrder := by
  rw [Portfolio.buy, if_pos hs]

theorem buy_eq_ok (p : Portfolio) (t : Ticker) (s pr : ℚ) (d : Option Int) (hs : 0 < s) :
    p.buy t s pr d =
      .ok (Portfolio.record_trade
        { p with
            cash := p.cash -
              (p.buyExecuted s pr * pr + p.buyExecuted s pr * pr * p.commission_buy),
            holdings := setKey t (getD p.holdings t + p.buyExecuted s pr) p.holdings }
        d t ("buy") (p.buyExecuted s pr) pr
        (p.buyExecuted s pr * pr * p.commission_buy) (p.buyExecuted s pr * pr)) := by
  simp only [Portfolio.buy, Portfolio.buyExecuted]
  rw [if_neg (not_le.mpr hs)]
  by_cases hc : p.cash < s * pr + s * pr * p.commission_buy
  · simp only [if_pos hc]
  · simp only [if_neg hc]

theorem buy_ok_inv {p q : Portfolio} {t : Ticker} {s pr : ℚ} {d : Option Int}
    (h : p.buy t s pr d = .ok q) :
    0 < s ∧ q = Portfolio.record_trade
        { p with
            cash := p.cash -
              (p.buyExecuted s pr * pr + p.buyExecuted s pr * pr * p.commission_buy),
            holdings := setKey t (getD p.holdings t + p.buyExecuted s pr) p.holdings }
        d t ("buy") (p.buyExecuted s pr) pr
        (p.buyExecuted s pr * pr * p.commission_buy) (p.buyExecuted s pr * pr) := by
  by_cases hs : s ≤ 0
  · rw [buy_nonpos p t pr d hs] at h
    exact absurd h (by simp)
  · have hs' : 0 < s := lt_of_not_le hs
    rw [buy_eq_ok p t s pr d hs'] at h
    exact ⟨hs', (by simpa using h.symm)⟩

theorem sell_partial_not_held (p : Portfolio) (t : Ticker) (s pr : ℚ) (d : Option Int)
    (hheld : lookup? t p.holdings = none) :
    p.sellPartial t s pr d = .error .positionNotFound := by
  simp only [Portfolio.sellPartial, hheld]

theorem sell_partial_nonpos (p : Portfolio) (t : Ticker) {s : ℚ} (pr : ℚ) (d : Option Int)
    {held : ℚ} (hheld : lookup? t p.holdings = some held) (hs : s ≤ 0) :
    p.sellPartial t s pr d = .error .invalidOrder := by
  simp only [Portfolio.sellPartial, hheld]
  rw [if_pos hs]

theorem sell_partial_too_many (p : Portfolio) (t : Ticker) {s : ℚ} (pr : ℚ) (d : Option Int)
    {held : ℚ} (hheld : lookup? t p.holdings = some held) (hs : 0 < s) (hlt : held < s) :
    p.sellPartial t s pr d = .error .insufficientPosition := by
  simp only [Portfolio.sellPartial, hheld]
  rw [if_neg (not_le.mpr hs), if_pos hlt]

theorem sell_partial_eq_ok (p : Portfolio) (t : Ticker) {s : ℚ} (pr : ℚ) (d : Option Int)
    {held : ℚ} (hheld : lookup? t p.holdings = some held)
    (hs : 0 < s) (hle : s ≤ held) :
    p.sellPartial t s pr d =
      .ok (Portfolio.record_trade
        { p with cash := p.cash + (s * pr - s * pr * p.commission_sell),
                 holdings := if |held - s| < pruneEps then delKey t p.holdings
                             else setKey t (held - s) p.holdings }
        d t ("sell") s pr (s * pr * p.commission_sell) (s * pr)) := by
  simp only [Portfolio.sellPartial, hheld]
  rw [if_neg (not_le.mpr hs), if_neg (not_lt.mpr hle)]

theorem sell_partial_ok_inv {p q : Portfolio} {t : Ticker} {s pr : ℚ} {d : Option Int}
    (h : p.sellPartial t s pr d = .ok q) :
    ∃ held, lookup? t p.holdings = some held ∧ 0 < s ∧ s ≤ held ∧
      q = Portfolio.record_trade
        { p with cash := p.cash + (s * pr - s * pr * p.commission_sell),
                 holdings := if |held - s| < pruneEps then delKey t p.holdings
                             else setKey t (held - s) p.holdings }
        d t ("sell") s pr (s * pr * p.commission_sell) (s * pr) := by
  cases hheld : lookup? t p.holdings with
  | none => rw [sell_partial_not_held p t s pr d hheld] at h; exact absurd h (by simp)
  | some held =>
    by_cases hs : s ≤ 0
    · rw [sell_partial_nonpos p t pr d hheld hs] at h
      exact absurd h (by simp)
    · have hs' : 0 < s := lt_of_not_le hs
      by_cases hlt : held < s
      · rw [sell_partial_too_many p t pr d hheld hs' hlt] at h
        exact absurd h (by simp)
      · have hle : s ≤ held := not_lt.mp hlt
        rw [sell_partial_eq_ok p t pr d hheld hs' hle] at h
        exact ⟨held, rfl, hs', hle, (by simpa using h.symm)⟩

theorem sell_not_held (p : Portfolio) (t : Ticker) (pr : ℚ) (d : Option Int)
    (hheld : lookup? t p.holdings = none) :
    p.sell t pr d = .error .positionNotFound := by
  simp only [Portfolio.sell, hheld]

theorem sell_eq_sellPartial (p : Portfolio) (t : Ticker) (pr : ℚ) (d : Option Int)
    {held : ℚ} (hheld : lookup? t p.holdings = some held) :
    p.sell t pr d = p.sellPartial t held pr d := by
  simp only [Portfolio.sell, hheld]

theorem sell_ok_inv {p q : Portfolio} {t : Ticker} {pr : ℚ} {d : Option Int}
    (h : p.sell t pr d = .ok q) :
    ∃ held, lookup? t p.holdings = some held ∧ p.sellPartial t held pr d = .ok q := by
  cases hheld : lookup? t p.holdings with
  | none => rw [sell_not_held p t pr d hheld] at h; exact absurd h (by simp)
  | some held =>
    refine ⟨held, rfl, ?_⟩
    rw [← sell_eq_sellPartial p t pr d hheld]
    exact h


/-! ## Claim C4 -/

/-- C4: for every price `> 0` (and nonnegative buy commission), `buy` never
fails due to insufficient cash: with `shares > 0` it always succeeds; whenever
gross plus commission exceeds the available cash the executed order is clamped
to the maximum affordable share count `cash / (price·(1+commission_buy))`
(possibly zero shares), still debits cash (to exactly 0 in exact arithmetic),
credits holdings and appends a trade record; and the only error `buy` raises
is `invalidOrder`, exactly when `shares ≤ 0`. -/
theorem C4_buy_clamps_never_rejects (p : Portfolio) (t : Ticker) (s pr : ℚ)
    (d : Option Int) (hcb : 0 ≤ p.commission_buy) (hpr : 0 < pr) :
    (s ≤ 0 → p.buy t s pr d = .error .invalidOrder) ∧
    (0 < s → ∃ q, p.buy t s pr d = .ok q ∧
      q.trades.length = p.trades.length + 1 ∧
      (p.cash < s * pr * (1 + p.commission_buy) →
        p.buyExecuted s pr = p.cash / (pr * (1 + p.commission_buy)) ∧
        q.cash = 0 ∧
        q.holdings = setKey t (getD p.holdings t + p.buyExecuted s pr) p.holdings) ∧
      (s * pr * (1 + p.commission_buy) ≤ p.cash →
        p.buyExecuted s pr = s ∧
        q.cash = p.cash - s * pr * (1 + p.commission_buy) ∧
        q.holdings = setKey t (getD p.holdings t + s) p.holdings)) := by
  have h1 : (0:ℚ) < 1 + p.commission_buy := by linarith
  have h1' : (1 + p.commission_buy) ≠ 0 := ne_of_gt h1
  have hpr' : pr ≠ 0 := ne_of_gt hpr
  refine ⟨fun hs => buy_nonpos p t pr d hs, fun hs => ?_⟩
  refine ⟨_, buy_eq_ok p t s pr d hs, ?_, ?_, ?_⟩
  · simp [Portfolio.record_trade]
  · intro hc
    have hc' : p.cash < s * pr + s * pr * p.commission_buy := by nlinarith
    have he : p.buyExecuted s pr = p.cash / (1 + p.commission_buy) / pr := by
      unfold Portfolio.buyExecuted
      rw [if_pos hc']
    have he' : p.buyExecuted s pr = p.cash / (pr * (1 + p.commission_buy)) := by
      rw [he, div_div, mul_comm]
    refine ⟨he', ?_, ?_⟩
    · simp only [Portfolio.record_trade]
      rw [he]
      field_simp
      ring
    · simp only [Portfolio.record_trade]
  · intro hc
    have hc' : ¬ (p.cash < s * pr + s * pr * p.commission_buy) := by
      push_neg
      nlinarith
    have he : p.buyExecuted s pr = s := by
      unfold Portfolio.buyExecuted
      rw [if_neg hc']
    refine ⟨he, ?_, ?_⟩
    · simp only [Portfolio.record_trade]
      rw [he]
      ring
    · simp only [Portfolio.record_trade]
      rw [he]

/-- C4 witness: a concrete clamped buy. -/
theorem C4_witness :
    (0:ℚ) ≤ (Portfolio.init 10 0 0).commission_buy ∧ (0:ℚ) < 1 ∧
    (((100:ℚ) ≤ 0 → (Portfolio.init 10 0 0).buy ("A") 100 1 none = .error .invalidOrder) ∧
     (0 < (100:ℚ) → ∃ q, (Portfolio.init 10 0 0).buy ("A") 100 1 none = .ok q ∧
      q.trades.length = (Portfolio.init 10 0 0).trades.length + 1 ∧
      ((Portfolio.init 10 0 0).cash <
          100 * 1 * (1 + (Portfolio.init 10 0 0).commission_buy) →
        (Portfolio.init 10 0 0).buyExecuted 100 1
          = (Portfolio.init 10 0 0).cash
              / (1 * (1 + (Portfolio.init 10 0 0).commission_buy)) ∧
        q.cash = 0 ∧
        q.holdings = setKey ("A")
          (getD (Portfolio.init 10 0 0).holdings ("A")
            + (Portfolio.init 10 0 0).buyExecuted 100 1)
          (Portfolio.init 10 0 0).holdings) ∧
      (100 * 1 * (1 + (Portfolio.init 10 0 0).commission_buy)
          ≤ (Portfolio.init 10 0 0).cash →
        (Portfolio.init 10 0 0).buyExecuted 100 1 = 100 ∧
        q.cash = (Portfolio.init 10 0 0).cash
          - 100 * 1 * (1 + (Portfolio.init 10 0 0).commission_buy) ∧
        q.holdings = setKey ("A")
          (getD (Portfolio.init 10 0 0).holdings ("A") + 100)
          (Portfolio.init 10 0 0).holdings))) :=
  ⟨by norm_num [Portfolio.init], by norm_num,
    C4_buy_clamps_never_rejects (Portfolio.init 10 0 0) "A" 100 1 none
      (by norm_num [Portfolio.init]) (by norm_num)⟩

/-! ## Claim C1 -/

/-- C1 counterexample: at target value `v = −1` (price 1, commission 0,
ample cash), `convert_values_to_shares` yields `s = −1`, and the subsequent
`buy` of those `s` shares raises `invalidOrder` instead of debiting cash by
`s·p·(1+commission_buy)`. -/
theorem C1_counterexample :
    (Portfolio.init 100 0 0).convert_values_to_shares [("A", -1)] [("A", 1)]
      = [("A", -1)] ∧
    (Portfolio.init 100 0 0).buy ("A") (-1) 1 none = .error .invalidOrder ∧
    ∀ q, (Portfolio.init 100 0 0).buy ("A") (-1) 1 none ≠ .ok q := by
  refine ⟨?_, buy_nonpos _ _ _ _ (by norm_num), ?_⟩
  · norm_num [Portfolio.convert_values_to_shares, Portfolio.init, lookup?,
      List.filterMap_cons]
  · intro q
    rw [buy_nonpos _ _ _ _ (by norm_num : (-1:ℚ) ≤ 0)]
    simp

/-- C1 (amended with `v > 0`): for every commission rate in `[0,1)`, positive
price, positive target value `v` and sufficient cash,
`convert_values_to_shares` yields `s = v/(1+commission_buy)/p`, and buying
those `s` shares at the same price debits cash by exactly
`s·p·(1+commission_buy)`, which never exceeds `v`. -/
theorem C1_amended (p : Portfolio) (t : Ticker) (v pr : ℚ) (d : Option Int)
    (hcb0 : 0 ≤ p.commission_buy) (hcb1 : p.commission_buy < 1)
    (hv : 0 < v) (hpr : 0 < pr) (hcash : v ≤ p.cash) :
    p.convert_values_to_shares [(t, v)] [(t, pr)]
      = [(t, v / (1 + p.commission_buy) / pr)] ∧
    ∃ q, p.buy t (v / (1 + p.commission_buy) / pr) pr d = .ok q ∧
      q.cash = p.cash
        - (v / (1 + p.commission_buy) / pr) * pr * (1 + p.commission_buy) ∧
      (v / (1 + p.commission_buy) / pr) * pr * (1 + p.commission_buy) ≤ v := by
  have h1 : (0:ℚ) < 1 + p.commission_buy := by linarith
  have h1' : (1 + p.commission_buy) ≠ 0 := ne_of_gt h1
  have hpr' : pr ≠ 0 := ne_of_gt hpr
  have htot : (v / (1 + p.commission_buy) / pr) * pr * (1 + p.commission_buy) = v := by
    field_simp
    ring
  have hs : 0 < v / (1 + p.commission_buy) / pr := div_pos (div_pos hv h1) hpr
  constructor
  · simp [Portfolio.convert_values_to_shares, lookup?]
  · refine ⟨_, buy_eq_ok p t _ pr d hs, ?_, ?_⟩
    · have hc' : ¬ (p.cash < (v / (1 + p.commission_buy) / pr) * pr
          + (v / (1 + p.commission_buy) / pr) * pr * p.commission_buy) := by
        push_neg
        nlinarith [htot]
      have he : p.buyExecuted (v / (1 + p.commission_buy) / pr) pr
          = v / (1 + p.commission_buy) / pr := by
        unfold Portfolio.buyExecuted
        rw [if_neg hc']
      simp only [Portfolio.record_trade]
      rw [he]
      ring
    · rw [htot]

/-- C1 witness: commission 1/2, price 2, target value 30, cash 1000. -/
theorem C1_witness :
    (0:ℚ) ≤ (Portfolio.init 1000 (1/2) (1/2)).commission_buy ∧
    (Portfolio.init 1000 (1/2) (1/2)).commission_buy < 1 ∧
    (0:ℚ) < 30 ∧ (0:ℚ) < 2 ∧ (30:ℚ) ≤ (Portfolio.init 1000 (1/2) (1/2)).cash ∧
    ((Portfolio.init 1000 (1/2) (1/2)).convert_values_to_shares [("A", 30)] [("A", 2)]
      = [("A", 30 / (1 + (Portfolio.init 1000 (1/2) (1/2)).commission_buy) / 2)] ∧
    ∃ q, (Portfolio.init 1000 (1/2) (1/2)).buy ("A")
          (30 / (1 + (Portfolio.init 1000 (1/2) (1/2)).commission_buy) / 2) 2 none
        = .ok q ∧
      q.cash = (Portfolio.init 1000 (1/2) (1/2)).cash
        - (30 / (1 + (Portfolio.init 1000 (1/2) (1/2)).commission_buy) / 2) * 2
            * (1 + (Portfolio.init 1000 (1/2) (1/2)).commission_buy) ∧
      (30 / (1 + (Portfolio.init 1000 (1/2) (1/2)).commission_buy) / 2) * 2
          * (1 + (Portfolio.init 1000 (1/2) (1/2)).commission_buy) ≤ 30) :=
  ⟨by norm_num [Portfolio.init], by norm_num [Portfolio.init], by norm_num, by norm_num,
    by norm_num [Portfolio.init],
    C1_amended (Portfolio.init 1000 (1/2) (1/2)) "A" 30 2 none
      (by norm_num [Portfolio.init]) (by norm_num [Portfolio.init])
      (by norm_num) (by norm_num) (by norm_num [Portfolio.init])⟩

/-! ## Claim C7 -/

/-- C7 counterexample: `sell_partial` on a non-held ticker with `shares ≤ 0`
raises `positionNotFound` (the not-in-holdings check runs first), not the
`invalidOrder` the claim asserts. -/
theorem C7_counterexample :
    (Portfolio.init 100 0 0).sellPartial ("X") (-1) 1 none
      = .error .positionNotFound ∧
    Err.positionNotFound ≠ Err.invalidOrder := by
  refine ⟨sell_partial_not_held _ _ _ _ _ rfl, by simp⟩

/-- C7 (amended): `sell_partial` fails with `positionNotFound` whenever the
ticker is not held (whatever the sign of `shares`); for a held ticker it fails
with `invalidOrder` when `shares ≤ 0` and with `insufficientPosition` when
`shares` exceeds the holding; every failure precedes any state mutation, so
the returned state (none) leaves the ledger unchanged. -/
theorem C7_amended (p : Portfolio) (t : Ticker) (s pr : ℚ) (d : Option Int) :
    (lookup? t p.holdings = none →
      p.sellPartial t s pr d = .error .positionNotFound) ∧
    (∀ held, lookup? t p.holdings = some held → s ≤ 0 →
      p.sellPartial t s pr d = .error .invalidOrder) ∧
    (∀ held, lookup? t p.holdings = some held → 0 < s → held < s →
      p.sellPartial t s pr d = .error .insufficientPosition) ∧
    (∀ e, p.sellPartial t s pr d = .error e →
      ∀ q, p.sellPartial t s pr d ≠ .ok q) := by
  refine ⟨fun hh => sell_partial_not_held p t s pr d hh,
    fun held hh hs => sell_partial_nonpos p t pr d hh hs,
    fun held hh hs hlt => sell_partial_too_many p t pr d hh hs hlt,
    fun e he q => ?_⟩
  rw [he]
  simp

/-- C7 witness: selling 2 shares of a 1-share position fails with
`insufficientPosition`. -/
theorem C7_witness :
    lookup? ("A") witLedger.holdings = some 1 ∧ (0:ℚ) < 2 ∧ (1:ℚ) < 2 ∧
    witLedger.sellPartial ("A") 2 1 none = .error .insufficientPosition :=
  ⟨rfl, by norm_num, by norm_num,
    (C7_amended witLedger ("A") 2 1 none).2.2.1 1 rfl (by norm_num) (by norm_num)⟩

/-! ## Claim C8 -/

/-- C8: `score_proportional` allocation weights each selected ticker by
`score / Σscores` of the total value; with total score zero it falls back to
the equal-weight `total_value/n`; scenario B holds concretely; and any
allocation method other than `equal` and `score_proportional` fails with
`invalidConfig`. -/
theorem C8_score_proportional_allocation (selected : List (Ticker × ℚ)) (V : ℚ)
    (hne : selected ≠ []) :
    ((selected.map Prod.snd).sum ≠ 0 →
      calculate_target_holdings selected V ("score_proportional")
        = .ok (selected.map (fun ts =>
            (ts.1, ts.2 / (selected.map Prod.snd).sum * V)))) ∧
    ((selected.map Prod.snd).sum = 0 →
      calculate_target_holdings selected V ("score_proportional")
        = .ok (selected.map (fun ts => (ts.1, V / selected.length)))) ∧
    calculate_target_holdings [("A", 2), ("B", 2), ("C", 1)] 100000
        "score_proportional"
      = .ok [("A", 40000), ("B", 40000), ("C", 20000)] ∧
    (∀ m, m ≠ "equal" → m ≠ "score_proportional" →
      ∀ (sel : List (Ticker × ℚ)) (W : ℚ),
        calculate_target_holdings sel W m = .error .invalidConfig) := by
  have hemp : selected.isEmpty = false := by
    cases selected with
    | nil => exact absurd rfl hne
    | cons a l => rfl
  have hne1 : ("score_proportional" : String) ≠ "equal" := by decide
  have hlen : selected.length ≠ 0 := fun h => hne (List.length_eq_zero.mp h)
  refine ⟨?_, ?_, ?_, ?_⟩
  · intro hsum
    simp only [calculate_target_holdings, if_neg hne1, if_pos rfl, eq_self_iff_true,
      if_true, score_proportional, hemp, Bool.false_eq_true, if_false, if_neg hsum]
  · intro hsum
    simp only [calculate_target_holdings, if_neg hne1, if_pos rfl, eq_self_iff_true,
      if_true, score_proportional, hemp, Bool.false_eq_true, if_false, if_pos hsum,
      equal_weight, if_neg hlen]
  · have h5 : (List.map Prod.snd [("A", (2:ℚ)), ("B", 2), ("C", 1)]).sum = 5 := by
      norm_num
    simp only [calculate_target_holdings, if_neg hne1, if_pos rfl,
      score_proportional, List.isEmpty_cons, Bool.false_eq_true, if_false, h5]
    norm_num
  · intro m hm1 hm2 sel W
    simp only [calculate_target_holdings, if_neg hm1, if_neg hm2]

/-- C8 witness: scenario B through the general branch. -/
theorem C8_witness :
    ([("A", (2:ℚ)), ("B", 2), ("C", 1)] ≠ ([] : List (Ticker × ℚ))) ∧
    (([("A", (2:ℚ)), ("B", 2), ("C", 1)].map Prod.snd).sum ≠ 0) ∧
    calculate_target_holdings [("A", 2), ("B", 2), ("C", 1)] 100000
        "score_proportional"
      = .ok ([("A", (2:ℚ)), ("B", 2), ("C", 1)].map (fun ts =>
          (ts.1, ts.2 / ([("A", (2:ℚ)), ("B", 2), ("C", 1)].map Prod.snd).sum * 100000))) :=
  ⟨by simp, by norm_num,
    (C8_score_proportional_allocation [("A", 2), ("B", 2), ("C", 1)] 100000
      (by simp)).1 (by norm_num)⟩

/-! ## Claim C10 -/

/-- C10: in `rebalance`, whenever the measured SELL-phase value loss is at
most one cent, the buy-scaling fraction is exactly 1 and the BUY phase runs
unscaled; the leak-derived formula is applied only when the loss strictly
exceeds one cent. -/
theorem C10_no_scaling_for_small_leak (p : Portfolio) (targets prices : Dict)
    (d : Option Int) :
    (∀ q, (p.update_value prices).sellPhase targets prices d = .ok q →
      (p.update_value prices).total_value - (q.update_value prices).total_value
        ≤ 1 / 100 →
      p.rebalance targets prices d
        = targets.foldlM (Portfolio.buyPhaseStep prices d 1)
            (q.update_value prices)) ∧
    (∀ value_lost cash_after cash_initial : ℚ, value_lost ≤ 1 / 100 →
      Portfolio.fraction_to_buy value_lost cash_after cash_initial = 1) ∧
    (∀ value_lost cash_after cash_initial : ℚ, 1 / 100 < value_lost →
      Portfolio.fraction_to_buy value_lost cash_after cash_initial
        = ((cash_after - cash_initial + value_lost) - value_lost)
            / (cash_after - cash_initial + value_lost)) := by
  refine ⟨?_, ?_, ?_⟩
  · intro q hok hle
    simp only [Portfolio.rebalance, hok]
    rw [Portfolio.fraction_to_buy, if_neg (not_lt.mpr hle)]
  · intro vl ca ci h
    rw [Portfolio.fraction_to_buy, if_neg (not_lt.mpr h)]
  · intro vl ca ci h
    rw [Portfolio.fraction_to_buy, if_pos h]

/-- C10 witness: an empty rebalance measures zero loss and runs unscaled. -/
theorem C10_witness :
    ((Portfolio.init 100 0 0).update_value []).sellPhase [] [] none
      = .ok ((Portfolio.init 100 0 0).update_value []) ∧
    ((Portfolio.init 100 0 0).update_value []).total_value
        - ((((Portfolio.init 100 0 0).update_value [])).update_value []).total_value
      ≤ 1 / 100 ∧
    (Portfolio.init 100 0 0).rebalance [] [] none
      = ([] : Dict).foldlM (Portfolio.buyPhaseStep [] none 1)
          (((Portfolio.init 100 0 0).update_value []).update_value []) :=
  ⟨rfl,
    by norm_num [Portfolio.update_value, Portfolio.get_holdings_value,
      holdingsValue, Portfolio.init],
    (C10_no_scaling_for_small_leak (Portfolio.init 100 0 0) [] [] none).1
      ((Portfolio.init 100 0 0).update_value []) rfl
      (by norm_num [Portfolio.update_value, Portfolio.get_holdings_value,
        holdingsValue, Portfolio.init])⟩


/-! ## Claim C3 -/

/-- C3 counterexample: with a sub-threshold prior position (`1/2^40` shares of
`"T"`), the round trip `buy("T",1,1)`; `sell_partial("T",1,1)` reduces cash by
exactly `2·commission·s·p` (= 0 here) but does NOT restore the holdings
mapping: the residue entry is pruned away. -/
theorem C3_counterexample :
    ((cexRoundTrip.buy ("T") 1 1 none).bind
        (fun q => q.sellPartial ("T") 1 1 none)).map Portfolio.holdings
      = .ok [] ∧
    ((cexRoundTrip.buy ("T") 1 1 none).bind
        (fun q => q.sellPartial ("T") 1 1 none)).map Portfolio.cash
      = .ok (cexRoundTrip.cash - 2 * cexRoundTrip.commission_buy * 1 * 1) ∧
    cexRoundTrip.holdings ≠ [] := by
  refine ⟨?_, ?_, ?_⟩
  · norm_num [cexRoundTrip, tinyPos, Portfolio.init, Portfolio.buy,
      Portfolio.sellPartial, Portfolio.record_trade, Except.bind, Except.map,
      getD, lookup?, setKey, delKey, pruneEps, abs]
  · norm_num [cexRoundTrip, tinyPos, Portfolio.init, Portfolio.buy,
      Portfolio.sellPartial, Portfolio.record_trade, Except.bind, Except.map,
      getD, lookup?, setKey, delKey, pruneEps, abs]
  · norm_num [cexRoundTrip, Portfolio.init]

/-- C3 (amended: the ticker's prior position must be absent or at least the
pruning threshold `1e-10`): with equal buy and sell commission rates,
sufficient cash and positive shares and price, `buy(T,s,p)` immediately
followed by `sell_partial(T,s,p)` at unchanged price reduces cash by exactly
`2·commission·s·p` and restores the holdings mapping to its pre-trade state
(a ticker not held before is absent again afterwards). -/
theorem C3_amended (p : Portfolio) (t : Ticker) (s pr : ℚ) (d e : Option Int)
    (hcc : p.commission_sell = p.commission_buy)
    (hs : 0 < s) (hpr : 0 < pr)
    (hcash : s * pr * (1 + p.commission_buy) ≤ p.cash)
    (hheld : lookup? t p.holdings = none ∨
      ∃ c₀, lookup? t p.holdings = some c₀ ∧ pruneEps ≤ c₀) :
    ∃ q r, p.buy t s pr d = .ok q ∧ q.sellPartial t s pr e = .ok r ∧
      r.cash = p.cash - 2 * p.commission_buy * s * pr ∧
      r.holdings = p.holdings := by
  have hε : (0:ℚ) < pruneEps := by norm_num [pruneEps]
  have hc2 : ¬ (p.cash < s * pr + s * pr * p.commission_buy) := by
    push_neg
    nlinarith
  have he : p.buyExecuted s pr = s := by
    unfold Portfolio.buyExecuted
    rw [if_neg hc2]
  have hbuy := buy_eq_ok p t s pr d hs
  rw [he] at hbuy
  obtain ⟨Q, hbuyQ, hQcash, hQhold, hQcs, hQcb⟩ :
      ∃ Q, p.buy t s pr d = .ok Q ∧
        Q.cash = p.cash - (s * pr + s * pr * p.commission_buy) ∧
        Q.holdings = setKey t (getD p.holdings t + s) p.holdings ∧
        Q.commission_sell = p.commission_sell ∧
        Q.commission_buy = p.commission_buy := by
    refine ⟨_, hbuy, ?_, ?_, ?_, ?_⟩ <;> simp [Portfolio.record_trade]
  have hg0 : 0 ≤ getD p.holdings t := by
    rcases hheld with h | ⟨c₀, hc₀, hεc₀⟩
    · simp [getD, h]
    · simp only [getD, hc₀, Option.getD_some]
      linarith
  have hlookQ : lookup? t Q.holdings = some (getD p.holdings t + s) := by
    rw [hQhold]
    exact lookup?_setKey_self t _ p.holdings
  have hle : s ≤ getD p.holdings t + s := by linarith
  have hsell := sell_partial_eq_ok Q t pr e hlookQ hs hle
  refine ⟨Q, _, hbuyQ, hsell, ?_, ?_⟩
  · simp only [Portfolio.record_trade]
    rw [hQcash, hQcs, hcc]
    ring
  · simp only [Portfolio.record_trade]
    have hrem : getD p.holdings t + s - s = getD p.holdings t := by ring
    rw [hrem]
    rcases hheld with h | ⟨c₀, hc₀, hεc₀⟩
    · have hgz : getD p.holdings t = 0 := by simp [getD, h]
      rw [hgz, if_pos (by simpa using hε)]
      rw [hQhold, hgz]
      simpa using delKey_setKey_of_none (0 + s) h
    · have hgc : getD p.holdings t = c₀ := by simp [getD, hc₀]
      rw [hgc, if_neg (by rw [abs_of_pos (by linarith)]; linarith)]
      rw [hQhold, hgc, setKey_setKey]
      exact setKey_eq_self hc₀

/-- C3 witness: a fresh buy-then-sell round trip of one share with commission
`1/1000` on a ticker not previously held. -/
theorem C3_witness :
    (Portfolio.init 1000 (1/1000) (1/1000)).commission_sell
      = (Portfolio.init 1000 (1/1000) (1/1000)).commission_buy ∧
    (0:ℚ) < 1 ∧ (0:ℚ) < 5 ∧
    1 * 5 * (1 + (Portfolio.init 1000 (1/1000) (1/1000)).commission_buy)
      ≤ (Portfolio.init 1000 (1/1000) (1/1000)).cash ∧
    (lookup? ("A") (Portfolio.init 1000 (1/1000) (1/1000)).holdings = none ∨
      ∃ c₀, lookup? ("A") (Portfolio.init 1000 (1/1000) (1/1000)).holdings = some c₀ ∧
        pruneEps ≤ c₀) ∧
    ∃ q r, (Portfolio.init 1000 (1/1000) (1/1000)).buy ("A") 1 5 none = .ok q ∧
      q.sellPartial ("A") 1 5 none = .ok r ∧
      r.cash = (Portfolio.init 1000 (1/1000) (1/1000)).cash
        - 2 * (Portfolio.init 1000 (1/1000) (1/1000)).commission_buy * 1 * 5 ∧
      r.holdings = (Portfolio.init 1000 (1/1000) (1/1000)).holdings :=
  ⟨rfl, by norm_num, by norm_num, by norm_num [Portfolio.init], Or.inl rfl,
    C3_amended (Portfolio.init 1000 (1/1000) (1/1000)) "A" 1 5 none none rfl
      (by norm_num) (by norm_num) (by norm_num [Portfolio.init]) (Or.inl rfl)⟩


/-! ## Claim C6 -/

theorem sell_partial_holdingsOk {p q : Portfolio} {t : Ticker} {s pr : ℚ}
    {d : Option Int} (hok : holdingsOk p.holdings)
    (h : p.sellPartial t s pr d = .ok q) : holdingsOk q.holdings := by
  obtain ⟨held, hheld, hs, hle, rfl⟩ := sell_partial_ok_inv h
  intro tv htv
  simp only [Portfolio.record_trade] at htv
  by_cases hprune : |held - s| < pruneEps
  · rw [if_pos hprune] at htv
    exact hok tv (mem_delKey htv)
  · rw [if_neg hprune] at htv
    rcases mem_setKey htv with h1 | h1
    · have h0 : 0 ≤ held - s := by linarith
      have h2 : pruneEps ≤ held - s := by
        rw [abs_of_nonneg h0] at hprune
        linarith [not_lt.mp hprune]
      rw [h1]
      exact h2
    · exact hok tv h1

theorem sell_holdingsOk {p q : Portfolio} {t : Ticker} {pr : ℚ}
    {d : Option Int} (hok : holdingsOk p.holdings)
    (h : p.sell t pr d = .ok q) : holdingsOk q.holdings := by
  obtain ⟨held, _, h2⟩ := sell_ok_inv h
  exact sell_partial_holdingsOk hok h2

theorem buy_holdingsOk {p q : Portfolio} {t : Ticker} {s pr : ℚ} {d : Option Int}
    (hok : holdingsOk p.holdings) (hcash : 0 ≤ p.cash)
    (hcb : 0 ≤ p.commission_buy) (hpr : 0 < pr)
    (hcond : lookup? t p.holdings ≠ none ∨ pruneEps ≤ p.buyExecuted s pr)
    (h : p.buy t s pr d = .ok q) : holdingsOk q.holdings := by
  have hε : (0:ℚ) < pruneEps := by norm_num [pruneEps]
  obtain ⟨hs, rfl⟩ := buy_ok_inv h
  have hexec0 : 0 ≤ p.buyExecuted s pr := by
    unfold Portfolio.buyExecuted
    split
    · have h1 : (0:ℚ) < 1 + p.commission_buy := by linarith
      exact div_nonneg (div_nonneg hcash h1.le) hpr.le
    · exact hs.le
  intro tv htv
  simp only [Portfolio.record_trade] at htv
  rcases mem_setKey htv with h1 | h1
  · rw [h1]
    show pruneEps ≤ getD p.holdings t + p.buyExecuted s pr
    rcases hcond with hc | hc
    · obtain ⟨c₀, hc₀⟩ := Option.ne_none_iff_exists'.mp hc
      have hεc₀ := hok (t, c₀) (lookup?_mem hc₀)
      simp only [getD, hc₀, Option.getD_some]
      simp only at hεc₀
      linarith [hεc₀]
    · have hg0 : 0 ≤ getD p.holdings t := by
        cases hl : lookup? t p.holdings with
        | none => simp [getD, hl]
        | some c₀ =>
          have hεc₀ := hok (t, c₀) (lookup?_mem hl)
          simp only at hεc₀
          simp only [getD, hl, Option.getD_some]
          linarith
      linarith
  · exact hok tv h1

/-- C6 counterexample: a ledger satisfying the invariant (no holdings, zero
cash) on which a clamped `buy` executes zero shares and writes the entry
`("T", 0)` into holdings — a zero entry, violating the invariant. -/
theorem C6_counterexample :
    holdingsOk (Portfolio.init 0 0 0).holdings ∧
    ((Portfolio.init 0 0 0).buy ("T") 5 1 none).map Portfolio.holdings
      = .ok [("T", 0)] ∧
    ¬ holdingsOk [("T", 0)] := by
  refine ⟨?_, ?_, ?_⟩
  · intro tv htv
    simp [Portfolio.init] at htv
  · norm_num [Portfolio.init, Portfolio.buy, Portfolio.record_trade, Except.map,
      getD, lookup?, setKey]
  · intro h
    have h0 := h ("T", 0) (by simp)
    norm_num [pruneEps] at h0

/-- C6 (amended): on a ledger whose holdings all have magnitude at least
`1e-10` (positively), `sell` and `sell_partial` preserve that invariant
unconditionally (entries are removed, not zeroed, when they fall below the
threshold), and `buy` preserves it provided the bought ticker was already held
or the executed — possibly cash-clamped — share amount is itself at least
`1e-10`; a buy clamped at zero or near-zero cash into an unheld ticker
violates it, as the counterexample shows. -/
theorem C6_amended (p : Portfolio) (t : Ticker) (s pr : ℚ) (d : Option Int)
    (hok : holdingsOk p.holdings) :
    (∀ q, p.sellPartial t s pr d = .ok q → holdingsOk q.holdings) ∧
    (∀ q, p.sell t pr d = .ok q → holdingsOk q.holdings) ∧
    (∀ q, 0 ≤ p.cash → 0 ≤ p.commission_buy → 0 < pr →
      (lookup? t p.holdings ≠ none ∨ pruneEps ≤ p.buyExecuted s pr) →
      p.buy t s pr d = .ok q → holdingsOk q.holdings) :=
  ⟨fun _ h => sell_partial_holdingsOk hok h,
   fun _ h => sell_holdingsOk hok h,
   fun _ hcash hcb hpr hcond h => buy_holdingsOk hok hcash hcb hpr hcond h⟩

/-- C6 witness: a partial sell of half of a one-share position keeps the
invariant. -/
theorem C6_witness :
    holdingsOk witLedger.holdings ∧
    ∃ q, witLedger.sellPartial ("A") (1/2) 1 none = .ok q ∧ holdingsOk q.holdings := by
  have hok : holdingsOk witLedger.holdings := by
    intro tv htv
    simp [witLedger, Portfolio.init] at htv
    rw [htv]
    norm_num [pruneEps]
  have hsell := @sell_partial_eq_ok witLedger ("A") (1/2) 1 none 1 rfl
    (by norm_num) (by norm_num)
  exact ⟨hok, _, hsell, (C6_amended witLedger ("A") (1/2) 1 none hok).1 _ hsell⟩


/-! ## Claim C5 -/

theorem except_bind_ok {ε α β : Type _} (a : α) (f : α → Except ε β) :
    (Except.ok a >>= f : Except ε β) = f a := rfl

theorem except_bind_error {ε α β : Type _} (e : ε) (f : α → Except ε β) :
    ((Except.error e : Except ε α) >>= f) = Except.error e := rfl

theorem foldlM_preserve {α σ : Type _} (f : σ → α → Except Err σ) (P : σ → Prop)
    (hf : ∀ s a q, P s → f s a = .ok q → P q) :
    ∀ (l : List α) (s q : σ), P s → l.foldlM f s = .ok q → P q := by
  intro l
  induction l with
  | nil =>
    intro s q hP h
    simp only [List.foldlM_nil] at h
    cases h
    exact hP
  | cons a l ih =>
    intro s q hP h
    rw [List.foldlM_cons] at h
    cases hfa : f s a with
    | error e =>
      rw [hfa, except_bind_error] at h
      exact absurd h (by simp)
    | ok s1 =>
      rw [hfa, except_bind_ok] at h
      exact ih s1 q (hf s a s1 hP hfa) h

theorem buy_fields {p q : Portfolio} {t : Ticker} {s pr : ℚ} {d : Option Int}
    (h : p.buy t s pr d = .ok q) :
    q.commission_buy = p.commission_buy ∧ q.commission_sell = p.commission_sell := by
  obtain ⟨-, rfl⟩ := buy_ok_inv h
  simp [Portfolio.record_trade]

theorem sell_partial_fields {p q : Portfolio} {t : Ticker} {s pr : ℚ} {d : Option Int}
    (h : p.sellPartial t s pr d = .ok q) :
    q.commission_buy = p.commission_buy ∧ q.commission_sell = p.commission_sell := by
  obtain ⟨held, -, -, -, rfl⟩ := sell_partial_ok_inv h
  simp [Portfolio.record_trade]

theorem buy_cash_nonneg {p q : Portfolio} {t : Ticker} {s pr : ℚ} {d : Option Int}
    (hcash : 0 ≤ p.cash) (hcb : 0 ≤ p.commission_buy) (hpr : 0 < pr)
    (h : p.buy t s pr d = .ok q) : 0 ≤ q.cash := by
  obtain ⟨hs, rfl⟩ := buy_ok_inv h
  simp only [Portfolio.record_trade]
  unfold Portfolio.buyExecuted
  split
  · have h1 : (0:ℚ) < 1 + p.commission_buy := by linarith
    have hkey : p.cash / (1 + p.commission_buy) / pr * pr
        + p.cash / (1 + p.commission_buy) / pr * pr * p.commission_buy = p.cash := by
      field_simp
      ring
    linarith [hkey]
  · rename_i hc
    push_neg at hc
    linarith

theorem sell_partial_cash_mono {p q : Portfolio} {t : Ticker} {s pr : ℚ}
    {d : Option Int} (hcs : p.commission_sell ≤ 1) (hpr : 0 ≤ pr)
    (h : p.sellPartial t s pr d = .ok q) : p.cash ≤ q.cash := by
  obtain ⟨held, hheld, hs, hle, rfl⟩ := sell_partial_ok_inv h
  simp only [Portfolio.record_trade]
  have hnn : 0 ≤ s * pr * (1 - p.commission_sell) :=
    mul_nonneg (mul_nonneg hs.le hpr) (by linarith)
  nlinarith [hnn]

theorem sellPhaseStep_pres {cb cs : ℚ} (hcb : 0 ≤ cb) (hcs1 : cs ≤ 1)
    {targets prices : Dict} {d : Option Int}
    (hpos : ∀ t v, (t, v) ∈ prices → 0 < v) :
    ∀ (p : Portfolio) (t : Ticker) (q : Portfolio),
      (0 ≤ p.cash ∧ p.commission_buy = cb ∧ p.commission_sell = cs) →
      Portfolio.sellPhaseStep targets prices d p t = .ok q →
      (0 ≤ q.cash ∧ q.commission_buy = cb ∧ q.commission_sell = cs) := by
  intro p t q hP h
  unfold Portfolio.sellPhaseStep at h
  cases hl : lookup? t p.holdings with
  | none => rw [hl] at h; simp at h
  | some c =>
    rw [hl] at h
    simp only at h
    split at h
    · cases hl2 : lookup? t prices with
      | none => rw [hl2] at h; simp at h
      | some pr =>
        rw [hl2] at h
        obtain ⟨held, -, hsp⟩ := sell_ok_inv h
        have hpr0 : 0 < pr := hpos t pr (lookup?_mem hl2)
        refine ⟨le_trans hP.1 (sell_partial_cash_mono ?_ hpr0.le hsp), ?_, ?_⟩
        · rw [hP.2.2]; exact hcs1
        · rw [(sell_partial_fields hsp).1]; exact hP.2.1
        · rw [(sell_partial_fields hsp).2]; exact hP.2.2
    · split at h
      · cases hl2 : lookup? t prices with
        | none => rw [hl2] at h; simp at h
        | some pr =>
          rw [hl2] at h
          have hpr0 : 0 < pr := hpos t pr (lookup?_mem hl2)
          refine ⟨le_trans hP.1 (sell_partial_cash_mono ?_ hpr0.le h), ?_, ?_⟩
          · rw [hP.2.2]; exact hcs1
          · rw [(sell_partial_fields h).1]; exact hP.2.1
          · rw [(sell_partial_fields h).2]; exact hP.2.2
      · cases h
        exact hP

theorem buyPhaseStep_pres {cb cs : ℚ} (hcb : 0 ≤ cb)
    {prices : Dict} {d : Option Int} {frac : ℚ}
    (hpos : ∀ t v, (t, v) ∈ prices → 0 < v) :
    ∀ (p : Portfolio) (tt : Ticker × ℚ) (q : Portfolio),
      (0 ≤ p.cash ∧ p.commission_buy = cb ∧ p.commission_sell = cs) →
      Portfolio.buyPhaseStep prices d frac p tt = .ok q →
      (0 ≤ q.cash ∧ q.commission_buy = cb ∧ q.commission_sell = cs) := by
  intro p tt q hP h
  have hcb' : 0 ≤ p.commission_buy := by rw [hP.2.1]; exact hcb
  unfold Portfolio.buyPhaseStep at h
  simp only at h
  split at h
  · cases hl : lookup? tt.1 prices with
    | none => rw [hl] at h; simp at h
    | some pr =>
      rw [hl] at h
      simp only at h
      have hpr0 : 0 < pr := hpos tt.1 pr (lookup?_mem hl)
      split at h
      · exact ⟨buy_cash_nonneg hP.1 hcb' hpr0 h,
          (buy_fields h).1.trans hP.2.1, (buy_fields h).2.trans hP.2.2⟩
      · split at h
        · split at h
          · exact ⟨buy_cash_nonneg hP.1 hcb' hpr0 h,
              (buy_fields h).1.trans hP.2.1, (buy_fields h).2.trans hP.2.2⟩
          · cases h
            exact hP
        · cases h
          exact hP
  · cases h
    exact hP

theorem update_value_pres {cb cs : ℚ} (prices : Dict) (p : Portfolio)
    (hP : 0 ≤ p.cash ∧ p.commission_buy = cb ∧ p.commission_sell = cs) :
    0 ≤ (p.update_value prices).cash ∧
    (p.update_value prices).commission_buy = cb ∧
    (p.update_value prices).commission_sell = cs := by
  simpa [Portfolio.update_value] using hP

theorem rebalance_pres {cb cs : ℚ} (hcb : 0 ≤ cb) (hcs1 : cs ≤ 1)
    {targets prices : Dict} {d : Option Int}
    (hpos : ∀ t v, (t, v) ∈ prices → 0 < v) {p q : Portfolio}
    (hP : 0 ≤ p.cash ∧ p.commission_buy = cb ∧ p.commission_sell = cs)
    (h : p.rebalance targets prices d = .ok q) :
    0 ≤ q.cash ∧ q.commission_buy = cb ∧ q.commission_sell = cs := by
  simp only [Portfolio.rebalance] at h
  cases hsp : (p.update_value prices).sellPhase targets prices d with
  | error e => rw [hsp] at h; simp at h
  | ok p1 =>
    rw [hsp] at h
    have hP0 := update_value_pres prices p hP
    have hP1 : 0 ≤ p1.cash ∧ p1.commission_buy = cb ∧ p1.commission_sell = cs := by
      unfold Portfolio.sellPhase at hsp
      exact foldlM_preserve _ _ (sellPhaseStep_pres hcb hcs1 hpos) _ _ _ hP0 hsp
    have hP2 := update_value_pres prices p1 hP1
    exact foldlM_preserve _ _ (buyPhaseStep_pres hcb hpos) _ _ _ hP2 h

theorem reachable_inv {cb cs : ℚ} (hcb : 0 ≤ cb) (hcs1 : cs ≤ 1)
    {p : Portfolio} (h : Reachable cb cs p) :
    0 ≤ p.cash ∧ p.commission_buy = cb ∧ p.commission_sell = cs := by
  induction h with
  | init cap hcap => exact ⟨hcap.le, rfl, rfl⟩
  | buy hr hpr hok ih =>
    have hcb' := hcb
    rw [← ih.2.1] at hcb'
    exact ⟨buy_cash_nonneg ih.1 hcb' hpr hok,
      (buy_fields hok).1.trans ih.2.1, (buy_fields hok).2.trans ih.2.2⟩
  | sell hr hpr hok ih =>
    obtain ⟨held, -, hsp⟩ := sell_ok_inv hok
    have hcs' := hcs1
    rw [← ih.2.2] at hcs'
    exact ⟨le_trans ih.1 (sell_partial_cash_mono hcs' hpr.le hsp),
      (sell_partial_fields hsp).1.trans ih.2.1, (sell_partial_fields hsp).2.trans ih.2.2⟩
  | sellPartial hr hpr hok ih =>
    have hcs' := hcs1
    rw [← ih.2.2] at hcs'
    exact ⟨le_trans ih.1 (sell_partial_cash_mono hcs' hpr.le hok),
      (sell_partial_fields hok).1.trans ih.2.1, (sell_partial_fields hok).2.trans ih.2.2⟩
  | rebalance hr hpos hok ih =>
    exact rebalance_pres hcb hcs1 (fun t v hm => hpos t v hm) ih hok

/-- C5: on every ledger state reachable from construction with positive
initial capital by successful `buy`, `sell`, `sell_partial` and `rebalance`
operations at positive prices (commission rates in `[0,1)`), cash never goes
below `-1e-8`; in this exact-arithmetic model cash in fact stays `≥ 0` — a
clamped buy leaves cash exactly 0 and a sell only adds cash. -/
theorem C5_cash_never_negative (cb cs : ℚ) (hcb0 : 0 ≤ cb) (hcb1 : cb < 1)
    (hcs0 : 0 ≤ cs) (hcs1 : cs < 1) (p : Portfolio) (h : Reachable cb cs p) :
    -(1 / 10 ^ 8 : ℚ) ≤ p.cash ∧ 0 ≤ p.cash := by
  have h0 := (reachable_inv hcb0 hcs1.le h).1
  constructor
  · linarith [h0]
  · exact h0

/-- C5 witness: the freshly constructed ledger. -/
theorem C5_witness :
    (0:ℚ) ≤ 0 ∧ (0:ℚ) < 1 ∧ Reachable 0 0 (Portfolio.init 100 0 0) ∧
    (-(1 / 10 ^ 8 : ℚ) ≤ (Portfolio.init 100 0 0).cash ∧
      0 ≤ (Portfolio.init 100 0 0).cash) :=
  ⟨le_refl 0, by norm_num, Reachable.init 100 (by norm_num),
    C5_cash_never_negative 0 0 (le_refl 0) (by norm_num) (le_refl 0) (by norm_num)
      (Portfolio.init 100 0 0) (Reachable.init 100 (by norm_num))⟩


/-! ## Claim C2 -/

theorem foldlM_singleton {α σ : Type _} (f : σ → α → Except Err σ) (s : σ) (a : α) :
    [a].foldlM f s = f s a := by
  cases h : f s a with
  | error e => rw [List.foldlM_cons, h, except_bind_error]
  | ok s1 =>
    rw [List.foldlM_cons, h, except_bind_ok, List.foldlM_nil]
    rfl

theorem sellPhaseStep_value_spec {targets prices : Dict} {d : Option Int}
    {p q : Portfolio} {t : Ticker}
    (hnd : (keys p.holdings).Nodup)
    (hcs : 0 ≤ p.commission_sell)
    (hpriced : PricedNonneg prices p.holdings)
    (htgt : TargetsOk targets p.holdings)
    (h : Portfolio.sellPhaseStep targets prices d p t = .ok q) :
    q.commission_sell = p.commission_sell ∧
    (∀ t', t' ∈ keys q.holdings → t' ∈ keys p.holdings) ∧
    (keys q.holdings).Nodup ∧
    ∃ new, q.trades = p.trades ++ new ∧
      (p.cash + holdingsValue p.holdings prices)
        - (q.cash + holdingsValue q.holdings prices)
        = (new.map Trade.commission).sum ∧
      0 ≤ (new.map Trade.commission).sum ∧
      (∀ tr ∈ new, tr.action = "sell" ∧
        tr.commission = p.commission_sell * tr.shares * tr.price) := by
  have hε : (0:ℚ) < pruneEps := by norm_num [pruneEps]
  unfold Portfolio.sellPhaseStep at h
  cases hl : lookup? t p.holdings with
  | none => rw [hl] at h; simp at h
  | some c =>
    rw [hl] at h
    simp only at h
    have htk : t ∈ keys p.holdings := mem_keys_of_lookup? hl
    obtain ⟨pr0, hpr0, hpr0nn⟩ := hpriced t htk
    split at h
    · -- full sell: the target is zero
      cases hl2 : lookup? t prices with
      | none => rw [hl2] at h; simp at h
      | some pr =>
        rw [hl2] at h
        simp only at h
        obtain ⟨held, hl', hsp⟩ := sell_ok_inv h
        rw [hl] at hl'
        injection hl' with hl'
        subst hl'
        obtain ⟨held2, hl2', hs, hle, rfl⟩ := sell_partial_ok_inv hsp
        rw [hl] at hl2'
        injection hl2' with hl2'
        subst hl2'
        have hprpr : pr0 = pr := by
          rw [hpr0] at hl2
          injection hl2
        subst hprpr
        have hifz : |c - c| < pruneEps := by
          simpa using hε
        refine ⟨by simp [Portfolio.record_trade], ?_, ?_,
          [⟨d, t, "sell", c, pr0, c * pr0 * p.commission_sell, c * pr0⟩],
          by simp [Portfolio.record_trade], ?_, ?_, ?_⟩
        · intro t' ht'
          simp only [Portfolio.record_trade, if_pos hifz] at ht'
          exact (keys_delKey_sublist t p.holdings).subset ht'
        · simp only [Portfolio.record_trade, if_pos hifz]
          exact hnd.sublist (keys_delKey_sublist t p.holdings)
        · simp only [Portfolio.record_trade, if_pos hifz,
            holdingsValue_delKey hl hpr0, List.map_cons, List.map_nil,
            List.sum_cons, List.sum_nil]
          ring
        · simp only [List.map_cons, List.map_nil, List.sum_cons, List.sum_nil,
            add_zero]
          exact mul_nonneg (mul_nonneg hs.le hpr0nn) hcs
        · intro tr htr
          simp only [List.mem_singleton] at htr
          subst htr
          exact ⟨rfl, by ring⟩
    · -- partial or no sell
      rename_i hT
      split at h
      · -- partial sell down to the target
        rename_i hTlt
        cases hl2 : lookup? t prices with
        | none => rw [hl2] at h; simp at h
        | some pr =>
          rw [hl2] at h
          simp only at h
          obtain ⟨held2, hl2', hs, hle, rfl⟩ := sell_partial_ok_inv h
          rw [hl] at hl2'
          injection hl2' with hl2'
          subst hl2'
          have hprpr : pr0 = pr := by
            rw [hpr0] at hl2
            injection hl2
          subst hprpr
          have hεg : pruneEps ≤ getD targets t := by
            rcases htgt t htk with h0 | h0
            · exact absurd h0 hT
            · exact h0
          have hrem : c - (c - getD targets t) = getD targets t := by ring
          have hifn : ¬ (|c - (c - getD targets t)| < pruneEps) := by
            rw [hrem, abs_of_nonneg (by linarith)]
            linarith
          refine ⟨by simp [Portfolio.record_trade], ?_, ?_,
            [⟨d, t, "sell", c - getD targets t, pr0,
              (c - getD targets t) * pr0 * p.commission_sell,
              (c - getD targets t) * pr0⟩],
            by simp [Portfolio.record_trade], ?_, ?_, ?_⟩
          · intro t' ht'
            simp only [Portfolio.record_trade, if_neg hifn] at ht'
            rw [keys_setKey_of_some hl] at ht'
            exact ht'
          · simp only [Portfolio.record_trade, if_neg hifn]
            rw [keys_setKey_of_some hl]
            exact hnd
          · have hifn2 : ¬ (|getD targets t| < pruneEps) := by
              rw [abs_of_nonneg (by linarith)]
              linarith
            simp only [Portfolio.record_trade, hrem, if_neg hifn2,
              holdingsValue_setKey (getD targets t) hl hpr0, List.map_cons,
              List.map_nil, List.sum_cons, List.sum_nil]
            ring
          · simp only [List.map_cons, List.map_nil, List.sum_cons, List.sum_nil,
              add_zero]
            exact mul_nonneg (mul_nonneg hs.le hpr0nn) hcs
          · intro tr htr
            simp only [List.mem_singleton] at htr
            subst htr
            exact ⟨rfl, by ring⟩
      · -- the target meets or exceeds the holding: no trade
        cases h
        exact ⟨rfl, fun t' ht' => ht', hnd, [], by simp, by simp, by simp, by simp⟩

theorem sellPhaseFold_value_spec {targets prices : Dict} {d : Option Int} :
    ∀ (ts : List Ticker) (p q : Portfolio),
      (keys p.holdings).Nodup → 0 ≤ p.commission_sell →
      PricedNonneg prices p.holdings → TargetsOk targets p.holdings →
      ts.foldlM (Portfolio.sellPhaseStep targets prices d) p = .ok q →
      (keys q.holdings).Nodup ∧ q.commission_sell = p.commission_sell ∧
      PricedNonneg prices q.holdings ∧ TargetsOk targets q.holdings ∧
      ∃ new, q.trades = p.trades ++ new ∧
        (p.cash + holdingsValue p.holdings prices)
          - (q.cash + holdingsValue q.holdings prices)
          = (new.map Trade.commission).sum ∧
        0 ≤ (new.map Trade.commission).sum ∧
        (∀ tr ∈ new, tr.action = "sell" ∧
          tr.commission = p.commission_sell * tr.shares * tr.price) := by
  intro ts
  induction ts with
  | nil =>
    intro p q hnd hcs hpriced htgt h
    simp only [List.foldlM_nil] at h
    cases h
    exact ⟨hnd, rfl, hpriced, htgt, [], by simp, by simp, by simp, by simp⟩
  | cons a ts ih =>
    intro p q hnd hcs hpriced htgt h
    rw [List.foldlM_cons] at h
    cases hfa : Portfolio.sellPhaseStep targets prices d p a with
    | error e =>
      rw [hfa, except_bind_error] at h
      exact absurd h (by simp)
    | ok p1 =>
      rw [hfa, except_bind_ok] at h
      obtain ⟨hcs1, hsub1, hnd1, new1, htr1, hval1, hnn1, hprop1⟩ :=
        sellPhaseStep_value_spec hnd hcs hpriced htgt hfa
      have hpriced1 : PricedNonneg prices p1.holdings :=
        fun t' ht' => hpriced t' (hsub1 t' ht')
      have htgt1 : TargetsOk targets p1.holdings :=
        fun t' ht' => htgt t' (hsub1 t' ht')
      obtain ⟨hndq, hcsq, hpricedq, htgtq, new2, htr2, hval2, hnn2, hprop2⟩ :=
        ih p1 q hnd1 (by rw [hcs1]; exact hcs) hpriced1 htgt1 h
      refine ⟨hndq, hcsq.trans hcs1, hpricedq, htgtq, new1 ++ new2, ?_, ?_, ?_, ?_⟩
      · rw [htr2, htr1, List.append_assoc]
      · rw [List.map_append, List.sum_append]
        linarith [hval1, hval2]
      · rw [List.map_append, List.sum_append]
        linarith [hnn1, hnn2]
      · intro tr htr
        rcases List.mem_append.mp htr with hm | hm
        · exact hprop1 tr hm
        · obtain ⟨ha, hc⟩ := hprop2 tr hm
          exact ⟨ha, by rw [hc, hcs1]⟩

/-- C2 counterexample: rebalancing one whole share of `"T"` (price 1, zero
commissions, cash 0) down to the sub-threshold target `1/2^40` prunes the
residue, so the SELL phase loses `1/2^40` of value while the sum of sell
commissions is 0. -/
theorem C2_counterexample :
    cexResidue.sellPhase [("T", tinyPos)] [("T", 1)] none
      = .ok ⟨0, 1 - tinyPos, [], 0, 0,
          [⟨none, "T", "sell", 1 - tinyPos, 1, 0, 1 - tinyPos⟩], 0⟩ ∧
    (cexResidue.update_value [("T", 1)]).total_value
        - ((⟨0, 1 - tinyPos, [], 0, 0,
            [⟨none, "T", "sell", 1 - tinyPos, 1, 0, 1 - tinyPos⟩], 0⟩ :
              Portfolio).update_value [("T", 1)]).total_value
      = tinyPos ∧
    ((([⟨none, "T", "sell", 1 - tinyPos, 1, 0, 1 - tinyPos⟩] :
        List Trade).drop cexResidue.trades.length).map Trade.commission).sum
      = 0 ∧
    tinyPos ≠ 0 := by
  refine ⟨?_, ?_, ?_, ?_⟩
  · rw [Portfolio.sellPhase]
    have hkeys : keys cexResidue.holdings = ["T"] := rfl
    rw [hkeys, foldlM_singleton]
    norm_num [cexResidue, tinyPos, Portfolio.init, Portfolio.sellPhaseStep,
      getD, lookup?, Portfolio.sell, Portfolio.sellPartial,
      Portfolio.record_trade, pruneEps, delKey, abs]
  · norm_num [cexResidue, tinyPos, Portfolio.init, Portfolio.update_value,
      Portfolio.get_holdings_value, holdingsValue, lookup?]
  · norm_num [cexResidue, Portfolio.init]
  · norm_num [tinyPos]

/-- C2 (amended: every held ticker's target share count must be zero or at
least the pruning threshold `1e-10`): for a rebalance SELL phase in which
every held ticker has a nonnegative price, the value lost across the phase —
total value by `update_value` before minus after, at the same prices — is
non-negative and equals exactly the sum of the sell commissions
(`commission_sell × shares_sold × price`) of the sells executed in the
phase. -/
theorem C2_amended (p : Portfolio) (targets prices : Dict) (d : Option Int)
    (q : Portfolio)
    (hnd : (keys p.holdings).Nodup) (hcs : 0 ≤ p.commission_sell)
    (hpriced : PricedNonneg prices p.holdings)
    (htgt : TargetsOk targets p.holdings)
    (hok : p.sellPhase targets prices d = .ok q) :
    (p.update_value prices).total_value - (q.update_value prices).total_value
      = ((q.trades.drop p.trades.length).map Trade.commission).sum ∧
    0 ≤ (p.update_value prices).total_value
      - (q.update_value prices).total_value ∧
    (∀ tr ∈ q.trades.drop p.trades.length, tr.action = "sell" ∧
      tr.commission = p.commission_sell * tr.shares * tr.price) := by
  unfold Portfolio.sellPhase at hok
  obtain ⟨-, -, -, -, new, htr, hval, hnn, hprop⟩ :=
    sellPhaseFold_value_spec _ p q hnd hcs hpriced htgt hok
  have hdrop : q.trades.drop p.trades.length = new := by
    rw [htr]
    simp
  rw [hdrop]
  have hup : ∀ r : Portfolio, (r.update_value prices).total_value
      = r.cash + holdingsValue r.holdings prices := by
    intro r
    simp [Portfolio.update_value, Portfolio.get_holdings_value]
  rw [hup, hup]
  exact ⟨hval, by linarith [hval, hnn], hprop⟩

/-- C2 witness: a full sell of one share of `"A"` at price 2 with zero
commissions loses no value. -/
theorem C2_witness :
    (keys witLedger.holdings).Nodup ∧ 0 ≤ witLedger.commission_sell ∧
    PricedNonneg [("A", 2)] witLedger.holdings ∧
    TargetsOk [] witLedger.holdings ∧
    witLedger.sellPhase [] [("A", 2)] none
      = .ok ⟨10, 12, [], 0, 0, [⟨none, "A", "sell", 1, 2, 0, 2⟩], 10⟩ ∧
    ((witLedger.update_value [("A", 2)]).total_value
        - (((⟨10, 12, [], 0, 0, [⟨none, "A", "sell", 1, 2, 0, 2⟩], 10⟩ :
            Portfolio)).update_value [("A", 2)]).total_value
      = ((((⟨10, 12, [], 0, 0, [⟨none, "A", "sell", 1, 2, 0, 2⟩], 10⟩ :
            Portfolio)).trades.drop witLedger.trades.length).map
          Trade.commission).sum) := by
  have hnd : (keys witLedger.holdings).Nodup := by
    simp [witLedger, Portfolio.init, keys]
  have hcs : (0:ℚ) ≤ witLedger.commission_sell := by
    norm_num [witLedger, Portfolio.init]
  have hpriced : PricedNonneg [("A", 2)] witLedger.holdings := by
    intro t ht
    simp [witLedger, Portfolio.init, keys] at ht
    subst ht
    exact ⟨2, rfl, by norm_num⟩
  have htgt : TargetsOk [] witLedger.holdings := by
    intro t ht
    exact Or.inl rfl
  have hok : witLedger.sellPhase [] [("A", 2)] none
      = .ok ⟨10, 12, [], 0, 0, [⟨none, "A", "sell", 1, 2, 0, 2⟩], 10⟩ := by
    rw [Portfolio.sellPhase]
    have hkeys : keys witLedger.holdings = ["A"] := rfl
    rw [hkeys, foldlM_singleton]
    norm_num [witLedger, Portfolio.init, Portfolio.sellPhaseStep, getD, lookup?,
      Portfolio.sell, Portfolio.sellPartial, Portfolio.record_trade, pruneEps,
      delKey, abs]
  exact ⟨hnd, hcs, hpriced, htgt, hok,
    (C2_amended witLedger [] [("A", 2)] none _ hnd hcs hpriced htgt hok).1⟩


/-! ## Claim C9 -/

theorem pct_change_length (l : List ℝ) : (pct_change l).length = l.length - 1 := by
  induction l with
  | nil => simp [pct_change]
  | cons v0 t ih =>
    cases t with
    | nil => simp [pct_change]
    | cons v1 r =>
      simp only [pct_change, List.length_cons] at ih ⊢
      omega

theorem metricsOf_volatility_def (history : List Snapshot) (cap : ℝ) :
    (metricsOf history cap).volatility
      = if 1 < (pct_change (history.map Snapshot.portfolio_value)).length
        then sampleStd (pct_change (history.map Snapshot.portfolio_value))
          * Real.sqrt 252
        else 0 := rfl

theorem metricsOf_sharpe_def (history : List Snapshot) (cap : ℝ) :
    (metricsOf history cap).sharpe
      = if 1 < (pct_change (history.map Snapshot.portfolio_value)).length
        then (if 0 < (metricsOf history cap).volatility
              then (metricsOf history cap).tir / (metricsOf history cap).volatility
              else 0)
        else 0 := rfl

/-- C9 counterexample: on a two-snapshot history (one per-step return) the
code sets volatility to 0 and sharpe to 0, while the sample standard
deviation of the single return is undefined (pandas `NaN`, modelled `none`) —
so volatility is not `stdev × sqrt 252` there. -/
theorem C9_counterexample :
    calculate_metrics cexHist2 100 = .ok (metricsOf cexHist2 100) ∧
    (metricsOf cexHist2 100).volatility = 0 ∧
    (metricsOf cexHist2 100).sharpe = 0 ∧
    sampleStdNaN (pct_change (cexHist2.map Snapshot.portfolio_value)) = none ∧
    some ((metricsOf cexHist2 100).volatility)
      ≠ (sampleStdNaN (pct_change (cexHist2.map Snapshot.portfolio_value))).map
          (fun sd => sd * Real.sqrt 252) := by
  have hlen : (pct_change (cexHist2.map Snapshot.portfolio_value)).length = 1 := by
    rw [pct_change_length]
    simp [cexHist2]
  have hn1 : ¬ (1 < (pct_change (cexHist2.map Snapshot.portfolio_value)).length) := by
    rw [hlen]
    omega
  have hn2 : ¬ (2 ≤ (pct_change (cexHist2.map Snapshot.portfolio_value)).length) := by
    rw [hlen]
    omega
  have hstd : sampleStdNaN (pct_change (cexHist2.map Snapshot.portfolio_value))
      = none := by
    rw [sampleStdNaN, if_neg hn2]
  refine ⟨rfl, ?_, ?_, hstd, ?_⟩
  · rw [metricsOf_volatility_def, if_neg hn1]
  · rw [metricsOf_sharpe_def, if_neg hn1]
  · rw [hstd]
    simp

/-- C9 (amended: the volatility/sharpe formulas hold only for histories with
at least two per-step returns, i.e. at least three snapshots): there the
metrics set `volatility = stdev(returns)·sqrt 252` and `sharpe = tir/volatility`
when `volatility > 0`, else 0; with two or fewer snapshots (one or zero
returns) the code sets both volatility and sharpe to 0 instead. -/
theorem C9_amended (history : List Snapshot) (cap : ℝ) :
    (3 ≤ history.length →
      calculate_metrics history cap = .ok (metricsOf history cap) ∧
      some ((metricsOf history cap).volatility)
        = (sampleStdNaN (pct_change (history.map Snapshot.portfolio_value))).map
            (fun sd => sd * Real.sqrt 252) ∧
      (0 < (metricsOf history cap).volatility →
        (metricsOf history cap).sharpe
          = (metricsOf history cap).tir / (metricsOf history cap).volatility) ∧
      ((metricsOf history cap).volatility ≤ 0 →
        (metricsOf history cap).sharpe = 0)) ∧
    (1 ≤ history.length → history.length ≤ 2 →
      (metricsOf history cap).volatility = 0 ∧
      (metricsOf history cap).sharpe = 0) := by
  constructor
  · intro h3
    have hlen : (pct_change (history.map Snapshot.portfolio_value)).length
        = history.length - 1 := by
      rw [pct_change_length, List.length_map]
    have h1 : 1 < (pct_change (history.map Snapshot.portfolio_value)).length := by
      omega
    have h2 : 2 ≤ (pct_change (history.map Snapshot.portfolio_value)).length := h1
    refine ⟨?_, ?_, ?_, ?_⟩
    · cases history with
      | nil => simp at h3
      | cons a l => rfl
    · rw [metricsOf_volatility_def, if_pos h1, sampleStdNaN, if_pos h2,
        Option.map_some']
    · intro hv
      rw [metricsOf_sharpe_def, if_pos h1, if_pos hv]
    · intro hv
      rw [metricsOf_sharpe_def, if_pos h1, if_neg (not_lt.mpr hv)]
  · intro hge hle
    have hn1 : ¬ (1 < (pct_change (history.map Snapshot.portfolio_value)).length) := by
      rw [pct_change_length, List.length_map]
      omega
    exact ⟨by rw [metricsOf_volatility_def, if_neg hn1],
      by rw [metricsOf_sharpe_def, if_neg hn1]⟩

/-- C9 witness: a three-snapshot history reaches the stdev branch. -/
theorem C9_witness :
    3 ≤ witHist3.length ∧
    (calculate_metrics witHist3 100 = .ok (metricsOf witHist3 100) ∧
      some ((metricsOf witHist3 100).volatility)
        = (sampleStdNaN (pct_change (witHist3.map Snapshot.portfolio_value))).map
            (fun sd => sd * Real.sqrt 252) ∧
      (0 < (metricsOf witHist3 100).volatility →
        (metricsOf witHist3 100).sharpe
          = (metricsOf witHist3 100).tir / (metricsOf witHist3 100).volatility) ∧
      ((metricsOf witHist3 100).volatility ≤ 0 →
        (metricsOf witHist3 100).sharpe = 0)) :=
  ⟨by simp [witHist3], (C9_amended witHist3 100).1 (by simp [witHist3])⟩


end Inv